import Mathlib

/-!
Shallow embedding of the OpenCV hand-detection and finger-counting pipeline
of src/main.py, together with theorems settling the specification claims.

Modelling conventions:
* a grayscale image (uint8) is a total function from pixel coordinates to ℕ;
* the floating-point background model is a grid of rationals (the exponential
  moving average with dyadic weights is exact in ℚ);
* the real-valued geometry of count_fingers (math.sqrt, np.pi) is modelled
  over ℝ;
* the OpenCV primitives the code treats as black boxes (findContours,
  convexHull, contourArea, circle rasterisation, the flip/crop/gray/blur
  preprocessing) are parameters collected in the structure Prims;
* fallible steps (a failed camera capture, an absent background) are
  modelled with Option, none standing for an aborted iteration.
-/

namespace HandPipeline

/-- A pixel coordinate. -/
abbrev Pix := ℕ × ℕ

/-- A single-channel image: one sample per pixel. -/
abbrev Grid (α : Type) := Pix → α

/-- An integer image point (x, y), as stored in an OpenCV contour. -/
abbrev Point := ℤ × ℤ

/-- A contour: an ordered list of integer points. -/
abbrev Contour := List Point

/-- A raw colour camera frame (one BGR triple per pixel); opaque to the core,
it is only ever handed to the external preprocessing chain. -/
abbrev RawFrame := Pix → ℕ × ℕ × ℕ

/-- Embedding of euclidean_distances (src/main.py lines 14-18): for each
point of other_points, in order, the square root of the sum of the squared
coordinate differences to center_point. -/
noncomputable def euclidean_distances : Point → List Point → List ℝ
  | _, [] => []
  | center_point, p :: ps =>
      Real.sqrt (((center_point.1 - p.1 : ℤ) : ℝ) ^ 2
          + ((center_point.2 - p.2 : ℤ) : ℝ) ^ 2)
        :: euclidean_distances center_point ps

/-- Embedding of accumulate (src/main.py lines 20-32) as a function of the
global background state: when the background is absent it becomes a
float-widened copy of the frame (frame.copy().astype("float")); otherwise
cv2.accumulateWeighted replaces every cell b with
(1 - accumulated_weight) * b + accumulated_weight * frame. -/
def accumulate (frame : Grid ℕ) (accumulated_weight : ℚ)
    (background : Option (Grid ℚ)) : Option (Grid ℚ) :=
  match background with
  | none => some (fun p => (frame p : ℚ))
  | some bg =>
      some (fun p => (1 - accumulated_weight) * bg p
        + accumulated_weight * (frame p : ℚ))

/-- Truncation of a rational toward zero, as C and numpy do when casting a
floating value to an integer type. -/
def ratTrunc (x : ℚ) : ℤ :=
  if 0 ≤ x then ⌊x⌋ else ⌈x⌉

/-- numpy astype("uint8") on a float cell: truncate toward zero, then wrap
into the 8-bit range. -/
def astype_uint8 (x : ℚ) : ℕ :=
  (Int.emod (ratTrunc x) 256).toNat

/-- cv2.absdiff on two uint8 grids: per-cell absolute difference (for 8-bit
inputs the result never exceeds 255, so no saturation occurs). -/
def absdiff (a b : Grid ℕ) : Grid ℕ :=
  fun p => Int.natAbs ((a p : ℤ) - (b p : ℤ))

/-- cv2.threshold with THRESH_BINARY and maxval 255: cells strictly above
the threshold become 255, all others 0. -/
def thresholdBinary (src : Grid ℕ) (threshold : ℕ) : Grid ℕ :=
  fun p => if threshold < src p then 255 else 0

/-- The difference grid of segment (line 41): cv2.absdiff of the
uint8-cast background and the frame. -/
def seg_diff (background : Grid ℚ) (frame : Grid ℕ) : Grid ℕ :=
  absdiff (fun p => astype_uint8 (background p)) frame

/-- The thresholded foreground mask of segment (line 44). -/
def seg_thresholded (background : Grid ℚ) (frame : Grid ℕ) (threshold : ℕ) :
    Grid ℕ :=
  thresholdBinary (seg_diff background frame) threshold

/-- Embedding of segment (src/main.py lines 34-54), parameterised by the
external contour extractor fC (cv2.findContours with RETR_EXTERNAL) and the
area primitive (cv2.contourArea).  Contours are extracted from the
thresholded difference mask; an empty contour list yields none, otherwise
the mask is paired with Python max(contours, key=area): the first contour
of maximal area. -/
def segment (fC : Grid ℕ → List Contour) (area : Contour → ℚ)
    (background : Grid ℚ) (frame : Grid ℕ) (threshold : ℕ) :
    Option (Grid ℕ × Contour) :=
  let thresholded := seg_thresholded background frame threshold
  let contours := fC thresholded
  match contours with
  | [] => none
  | c :: cs =>
      some (thresholded, cs.foldl (fun b x => if area b < area x then x else b) c)

/-- The external OpenCV primitives the core consumes, treated as black
boxes: the flip/crop/grayscale/blur preprocessing chain, the two contour
extractors (RETR_EXTERNAL with CHAIN_APPROX_SIMPLE for segment, with
CHAIN_APPROX_NONE for the circular ROI), cv2.contourArea, cv2.convexHull,
the rasterised pixel set of cv2.circle (center, radius, thickness), and the
in-place scribble cv2.findContours performs on its input image. -/
structure Prims where
  preprocess : RawFrame → Grid ℕ
  findContoursSeg : Grid ℕ → List Contour
  area : Contour → ℚ
  convexHull : Contour → Contour
  findContoursRoi : Grid ℕ → List Contour
  circlePx : Point → ℤ → ℕ → Pix → Bool
  contoursScratch : Grid ℕ → Grid ℕ

/-- The convex hull of the hand segment (src/main.py line 62). -/
def conv_hull (P : Prims) (hand_segment : Contour) : Contour :=
  P.convexHull hand_segment

/-- The hull point at np.argmin over the y coordinates (line 65): the first
point attaining the minimal y.  The empty-hull default is never exercised by
the claims, which assume a nonempty hull (np.argmin raises on empty input). -/
def top_point (P : Prims) (hand_segment : Contour) : Point :=
  match conv_hull P hand_segment with
  | [] => (0, 0)
  | p :: ps => ps.foldl (fun b x => if x.2 < b.2 then x else b) p

/-- The hull point at np.argmax over the y coordinates (line 66): the first
point attaining the maximal y. -/
def bottom_point (P : Prims) (hand_segment : Contour) : Point :=
  match conv_hull P hand_segment with
  | [] => (0, 0)
  | p :: ps => ps.foldl (fun b x => if b.2 < x.2 then x else b) p

/-- The hull point at np.argmin over the x coordinates (line 67): the first
point attaining the minimal x. -/
def left_point (P : Prims) (hand_segment : Contour) : Point :=
  match conv_hull P hand_segment with
  | [] => (0, 0)
  | p :: ps => ps.foldl (fun b x => if x.1 < b.1 then x else b) p

/-- The hull point at np.argmax over the x coordinates (line 68): the first
point attaining the maximal x. -/
def right_point (P : Prims) (hand_segment : Contour) : Point :=
  match conv_hull P hand_segment with
  | [] => (0, 0)
  | p :: ps => ps.foldl (fun b x => if b.1 < x.1 then x else b) p

/-- cX = (left[0] + right[0]) // 2 (line 71); Python // is floor division. -/
def cX (P : Prims) (hand_segment : Contour) : ℤ :=
  Int.fdiv ((left_point P hand_segment).1 + (right_point P hand_segment).1) 2

/-- cY = (top[1] + bottom[1]) // 2 (line 72); Python // is floor division. -/
def cY (P : Prims) (hand_segment : Contour) : ℤ :=
  Int.fdiv ((top_point P hand_segment).2 + (bottom_point P hand_segment).2) 2

/-- The assumed hand center (cX, cY) (line 75). -/
def circle_center (P : Prims) (hand_segment : Contour) : Point :=
  (cX P hand_segment, cY P hand_segment)

/-- outer_points = [top, left, bottom, right] (line 76). -/
def outer_points (P : Prims) (hand_segment : Contour) : List Point :=
  [top_point P hand_segment, left_point P hand_segment,
   bottom_point P hand_segment, right_point P hand_segment]

/-- Python max over a list of floats: the running maximum of a foldl that
replaces the current best only on a strictly larger value.  Python max
raises on an empty list; the 0 default is never exercised here. -/
noncomputable def pyMax : List ℝ → ℝ
  | [] => 0
  | d :: ds => ds.foldl (fun b x => if b < x then x else b) d

/-- max_distance = max(euclidean_distances(circle_center, outer_points))
(lines 77-78). -/
noncomputable def max_distance (P : Prims) (hand_segment : Contour) : ℝ :=
  pyMax (euclidean_distances (circle_center P hand_segment)
    (outer_points P hand_segment))

/-- Truncation of a real toward zero, as Python int() does. -/
noncomputable def realTrunc (x : ℝ) : ℤ :=
  if 0 ≤ x then ⌊x⌋ else ⌈x⌉

/-- radius = int(0.8 * max_distance) (line 81). -/
noncomputable def radius (P : Prims) (hand_segment : Contour) : ℤ :=
  realTrunc (0.8 * max_distance P hand_segment)

/-- circumference = 2 * np.pi * radius (line 82). -/
noncomputable def circumference (P : Prims) (hand_segment : Contour) : ℝ :=
  2 * Real.pi * (radius P hand_segment : ℝ)

/-- cv2.boundingRect of a contour: (x, y, w, h) with x, y the minimal
coordinates and w, h the extents plus one.  The empty contour yields
(0, 0, 0, 0) (not exercised: extracted contours are nonempty). -/
def boundingRect : Contour → ℤ × ℤ × ℤ × ℤ
  | [] => (0, 0, 0, 0)
  | p :: ps =>
      let mnx := ps.foldl (fun m q => min m q.1) p.1
      let mny := ps.foldl (fun m q => min m q.2) p.2
      let mxx := ps.foldl (fun m q => max m q.1) p.1
      let mxy := ps.foldl (fun m q => max m q.2) p.2
      (mnx, mny, mxx - mnx + 1, mxy - mny + 1)

/-- The first counting condition (line 109): with (x, y, w, h) the bounding
rectangle of the contour, cY + cY * 0.25 > y + h. -/
def out_of_wrist (cY : ℤ) (cnt : Contour) : Prop :=
  ((cY : ℝ) + (cY : ℝ) * 0.25)
    > (((boundingRect cnt).2.1 + (boundingRect cnt).2.2.2 : ℤ) : ℝ)

/-- The second counting condition (line 112): circumference * 0.25 exceeds
the number of points of the contour (cnt.shape[0]). -/
def limit_points (circumference : ℝ) (cnt : Contour) : Prop :=
  circumference * 0.25 > (cnt.length : ℝ)

open Classical in
/-- The conjunction of the two counting conditions, as the Boolean the loop
branches on (line 115). -/
noncomputable def fingerTest (cY : ℤ) (circumference : ℝ) (cnt : Contour) : Bool :=
  decide (out_of_wrist cY cnt ∧ limit_points circumference cnt)

/-- The circular ROI after np.zeros and cv2.circle (lines 85-88): the ring
pixels of the circle of the computed radius about (cX, cY) with thickness
10 hold 255, everything else the 0 of the fresh mask. -/
noncomputable def circular_roi_drawn (P : Prims) (hand_segment : Contour) : Grid ℕ :=
  fun p =>
    if P.circlePx (circle_center P hand_segment) (radius P hand_segment) 10 p
    then 255 else 0

/-- cv2.bitwise_and(thresholded, thresholded, mask=ring) (line 92): where
the ring mask is nonzero the bitwise AND of the two (equal) sources, 0
elsewhere. -/
noncomputable def circular_roi (P : Prims) (thresholded : Grid ℕ)
    (hand_segment : Contour) : Grid ℕ :=
  fun p =>
    if circular_roi_drawn P hand_segment p ≠ 0
    then Nat.land (thresholded p) (thresholded p) else 0

/-- Embedding of count_fingers (src/main.py lines 56-118): contours are
extracted from the circular ROI, and the loop of lines 101-116 increments
the running count once for every contour passing both conditions. -/
noncomputable def count_fingers (P : Prims) (thresholded : Grid ℕ)
    (hand_segment : Contour) : ℕ :=
  (P.findContoursRoi (circular_roi P thresholded hand_segment)).foldl
    (fun count cnt =>
      if fingerTest (cY P hand_segment) (circumference P hand_segment) cnt
      then count + 1 else count) 0

/-- The mutable state of the main loop (src/main.py lines 121-196): the
frame counter num_frames and the global background model. -/
structure LoopState where
  num_frames : ℕ
  background : Option (Grid ℚ)

/-- The state at entry of the main loop: num_frames = 0 (line 126), the
background unset (line 6). -/
def initialState : LoopState :=
  { num_frames := 0, background := none }

/-- What one loop iteration displays: the calibration banner (lines
150-152), a finger count for a detected hand (lines 161-176), or nothing
extra when segmentation found no hand. -/
inductive TickOut where
  | calibrating : TickOut
  | detected : ℕ → TickOut
  | noHand : TickOut
deriving DecidableEq

/-- One iteration of the main loop (lines 129-192) on a capture result.
A failed capture delivers no frame (cam.read() yields (False, None)); the
code ignores the success flag and feeds the frame straight to cv2.flip, so
the iteration aborts (none).  Otherwise the external preprocessing chain
produces the gray ROI; with num_frames < 60 the iteration accumulates the
background (weight 0.5, the default of line 20) and shows the calibration
banner, and from frame 60 on it runs segment (threshold 25, the default of
line 34) — dereferencing an absent background would raise, modelled as an
aborted iteration — and, when a hand was segmented, counts its fingers.
Either way num_frames is incremented (line 182). -/
noncomputable def tick (P : Prims) (s : LoopState) (cap : Option RawFrame) :
    Option (LoopState × TickOut) :=
  match cap with
  | none => none
  | some f =>
      let gray := P.preprocess f
      if s.num_frames < 60 then
        some ({ num_frames := s.num_frames + 1,
                background := accumulate gray (1/2) s.background },
              TickOut.calibrating)
      else
        match s.background with
        | none => none
        | some bg =>
            match segment P.findContoursSeg P.area bg gray 25 with
            | none =>
                some ({ s with num_frames := s.num_frames + 1 }, TickOut.noHand)
            | some (thresholded, hand_segment) =>
                some ({ s with num_frames := s.num_frames + 1 },
                      TickOut.detected (count_fingers P thresholded hand_segment))

/-- Iterating the main loop over a list of successfully captured frames,
aborting as soon as an iteration does. -/
noncomputable def runTicks (P : Prims) : LoopState → List RawFrame → Option LoopState
  | s, [] => some s
  | s, f :: fs =>
      match tick P s (some f) with
      | none => none
      | some (s', _) => runTicks P s' fs

/-- A store of allocated image buffers: a memory of grids indexed by ℕ,
with ids below next in use.  Used to make the in-place array effects of
count_fingers observable. -/
structure Store where
  mem : ℕ → Grid ℕ
  next : ℕ

/-- Allocate a fresh buffer holding grid g; returns the store and the new id. -/
def alloc (σ : Store) (g : Grid ℕ) : Store × ℕ :=
  ({ mem := fun i => if i = σ.next then g else σ.mem i, next := σ.next + 1 },
   σ.next)

/-- Overwrite buffer i with grid g. -/
def writeStore (σ : Store) (i : ℕ) (g : Grid ℕ) : Store :=
  { mem := fun j => if j = i then g else σ.mem j, next := σ.next }

/-- count_fingers (lines 85-118) with its array effects made explicit.  The
thresholded mask lives in the store at maskId.  np.zeros allocates a fresh
buffer (line 85); cv2.circle draws the ring in place on that fresh buffer
(line 88); cv2.bitwise_and builds a new array (line 92); findContours is
handed a copy of it (line 95) — a fresh allocation — and may scribble on
that copy (OpenCV 3 findContours modifies its input), modelled by the
contoursScratch primitive.  The counting loop itself is pure. -/
noncomputable def count_fingers_heap (P : Prims) (σ : Store) (maskId : ℕ)
    (hand_segment : Contour) : Store × ℕ :=
  let thresholded := σ.mem maskId
  let a0 := alloc σ (fun _ => 0)
  let σ1 := a0.1
  let ringId := a0.2
  let σ2 := writeStore σ1 ringId (fun p =>
    if P.circlePx (circle_center P hand_segment) (radius P hand_segment) 10 p
    then 255 else σ1.mem ringId p)
  let roi := fun p =>
    if σ2.mem ringId p ≠ 0
    then Nat.land (thresholded p) (thresholded p) else 0
  let a1 := alloc σ2 roi
  let σ3 := a1.1
  let roiId := a1.2
  let a2 := alloc σ3 (σ3.mem roiId)
  let σ4 := a2.1
  let copyId := a2.2
  let contours := P.findContoursRoi (σ4.mem copyId)
  let σ5 := writeStore σ4 copyId (P.contoursScratch (σ4.mem copyId))
  let count := contours.foldl
    (fun count cnt =>
      if fingerTest (cY P hand_segment) (circumference P hand_segment) cnt
      then count + 1 else count) 0
  (σ5, count)

/-- The step of Python max with a key: replace the running best only on a
strictly larger key, so ties keep the earlier element. -/
def maxStep {α β : Type} [LinearOrder β] (f : α → β) : α → α → α :=
  fun b x => if f b < f x then x else b

/-- The step of numpy argmin read as a value: replace the running best only
on a strictly smaller key, so ties keep the earlier element. -/
def minStep {α β : Type} [LinearOrder β] (f : α → β) : α → α → α :=
  fun b x => if f x < f b then x else b

lemma foldl_maxStep_first {α β : Type} [LinearOrder β] (f : α → β)
    (t : List α) (a : α) :
    ∃ pre post,
      a :: t = pre ++ (t.foldl (maxStep f) a) :: post ∧
      (∀ y ∈ pre, f y < f (t.foldl (maxStep f) a)) ∧
      ∀ y ∈ a :: t, f y ≤ f (t.foldl (maxStep f) a) := by
  induction t generalizing a with
  | nil => exact ⟨[], [], rfl, by simp, by simp⟩
  | cons b t ih =>
      have hfold : (b :: t).foldl (maxStep f) a = t.foldl (maxStep f) (maxStep f a b) := rfl
      by_cases hab : f a < f b
      · have hstep : maxStep f a b = b := by simp [maxStep, if_pos hab]
        obtain ⟨pre, post, heq, hlt, hle⟩ := ih b
        have hr : (b :: t).foldl (maxStep f) a = t.foldl (maxStep f) b := by
          rw [hfold, hstep]
        rw [hr]
        have hbr : f b ≤ f (t.foldl (maxStep f) b) := hle b (by simp)
        refine ⟨a :: pre, post, ?_, ?_, ?_⟩
        · simpa using congrArg (fun l => a :: l) heq
        · intro y hy
          rcases List.mem_cons.mp hy with rfl | hyp
          · exact lt_of_lt_of_le hab hbr
          · exact hlt y hyp
        · intro y hy
          rcases List.mem_cons.mp hy with rfl | hyt
          · exact le_of_lt (lt_of_lt_of_le hab hbr)
          · exact hle y hyt
      · have hstep : maxStep f a b = a := by simp [maxStep, if_neg hab]
        obtain ⟨pre, post, heq, hlt, hle⟩ := ih a
        have hr : (b :: t).foldl (maxStep f) a = t.foldl (maxStep f) a := by
          rw [hfold, hstep]
        rw [hr]
        have hba : f b ≤ f a := le_of_not_lt hab
        have har : f a ≤ f (t.foldl (maxStep f) a) := hle a (by simp)
        cases pre with
        | nil =>
            have h := heq
            simp only [List.nil_append] at h
            obtain ⟨hra, hpost⟩ := List.cons_eq_cons.mp h
            refine ⟨[], b :: t, ?_, by simp, ?_⟩
            · rw [List.nil_append, ← hra]
            · intro y hy
              rw [← hra]
              rcases List.mem_cons.mp hy with rfl | hyt
              · exact le_refl _
              · rcases List.mem_cons.mp hyt with rfl | hyt2
                · exact hba
                · have hy3 := hle y (List.mem_cons_of_mem a hyt2)
                  rwa [← hra] at hy3
        | cons p pre2 =>
            have h := heq
            simp only [List.cons_append] at h
            obtain ⟨hap, hta⟩ := List.cons_eq_cons.mp h
            have hfa := hlt p (by simp)
            rw [← hap] at hfa
            refine ⟨a :: b :: pre2, post, ?_, ?_, ?_⟩
            · simp only [List.cons_append]
              rw [← hta]
            · intro y hy
              rcases List.mem_cons.mp hy with rfl | hy2
              · exact hfa
              · rcases List.mem_cons.mp hy2 with rfl | hyp
                · exact lt_of_le_of_lt hba hfa
                · exact hlt y (List.mem_cons_of_mem p hyp)
            · intro y hy
              rcases List.mem_cons.mp hy with rfl | hy2
              · exact har
              · rcases List.mem_cons.mp hy2 with rfl | hyt
                · exact le_trans hba har
                · exact hle y (List.mem_cons_of_mem a hyt)

lemma foldl_minStep_first {α β : Type} [LinearOrder β] (f : α → β)
    (t : List α) (a : α) :
    ∃ pre post,
      a :: t = pre ++ (t.foldl (minStep f) a) :: post ∧
      (∀ y ∈ pre, f (t.foldl (minStep f) a) < f y) ∧
      ∀ y ∈ a :: t, f (t.foldl (minStep f) a) ≤ f y := by
  induction t generalizing a with
  | nil => exact ⟨[], [], rfl, by simp, by simp⟩
  | cons b t ih =>
      have hfold : (b :: t).foldl (minStep f) a = t.foldl (minStep f) (minStep f a b) := rfl
      by_cases hab : f b < f a
      · have hstep : minStep f a b = b := by simp [minStep, if_pos hab]
        obtain ⟨pre, post, heq, hlt, hle⟩ := ih b
        have hr : (b :: t).foldl (minStep f) a = t.foldl (minStep f) b := by
          rw [hfold, hstep]
        rw [hr]
        have hbr : f (t.foldl (minStep f) b) ≤ f b := hle b (by simp)
        refine ⟨a :: pre, post, ?_, ?_, ?_⟩
        · simpa using congrArg (fun l => a :: l) heq
        · intro y hy
          rcases List.mem_cons.mp hy with rfl | hyp
          · exact lt_of_le_of_lt hbr hab
          · exact hlt y hyp
        · intro y hy
          rcases List.mem_cons.mp hy with rfl | hyt
          · exact le_of_lt (lt_of_le_of_lt hbr hab)
          · exact hle y hyt
      · have hstep : minStep f a b = a := by simp [minStep, if_neg hab]
        obtain ⟨pre, post, heq, hlt, hle⟩ := ih a
        have hr : (b :: t).foldl (minStep f) a = t.foldl (minStep f) a := by
          rw [hfold, hstep]
        rw [hr]
        have hba : f a ≤ f b := le_of_not_lt hab
        have har : f (t.foldl (minStep f) a) ≤ f a := hle a (by simp)
        cases pre with
        | nil =>
            have h := heq
            simp only [List.nil_append] at h
            obtain ⟨hra, hpost⟩ := List.cons_eq_cons.mp h
            refine ⟨[], b :: t, ?_, by simp, ?_⟩
            · rw [List.nil_append, ← hra]
            · intro y hy
              rw [← hra]
              rcases List.mem_cons.mp hy with rfl | hyt
              · exact le_refl _
              · rcases List.mem_cons.mp hyt with rfl | hyt2
                · exact hba
                · have hy3 := hle y (List.mem_cons_of_mem a hyt2)
                  rwa [← hra] at hy3
        | cons p pre2 =>
            have h := heq
            simp only [List.cons_append] at h
            obtain ⟨hap, hta⟩ := List.cons_eq_cons.mp h
            have hfa := hlt p (by simp)
            rw [← hap] at hfa
            refine ⟨a :: b :: pre2, post, ?_, ?_, ?_⟩
            · simp only [List.cons_append]
              rw [← hta]
            · intro y hy
              rcases List.mem_cons.mp hy with rfl | hy2
              · exact hfa
              · rcases List.mem_cons.mp hy2 with rfl | hyp
                · exact lt_of_lt_of_le hfa hba
                · exact hlt y (List.mem_cons_of_mem p hyp)
            · intro y hy
              rcases List.mem_cons.mp hy with rfl | hy2
              · exact har
              · rcases List.mem_cons.mp hy2 with rfl | hyt
                · exact le_trans har hba
                · exact hle y (List.mem_cons_of_mem a hyt)

lemma foldl_count {α : Type} (p : α → Bool) (l : List α) (n : ℕ) :
    l.foldl (fun count x => if p x then count + 1 else count) n
      = n + (l.filter p).length := by
  induction l generalizing n with
  | nil => simp
  | cons c l ih =>
      by_cases h : p c
      · simp [List.foldl_cons, List.filter_cons, h, ih]; omega
      · simp [List.foldl_cons, List.filter_cons, h, ih]

lemma euclidean_distances_eq_map (c : Point) (pts : List Point) :
    euclidean_distances c pts
      = pts.map (fun p => Real.sqrt (((c.1 - p.1 : ℤ) : ℝ) ^ 2
          + ((c.2 - p.2 : ℤ) : ℝ) ^ 2)) := by
  induction pts with
  | nil => rfl
  | cons p ps ih => simp [euclidean_distances, ih]

/-- C7: for every center point and every ordered list of points,
euclidean_distances returns a sequence of the same length whose i-th element
is the square root of the sum of the squared coordinate differences between
the center and the i-th input point, and the empty input yields the empty
output (the function is a pure value-level map, so it has no side effects). -/
theorem euclidean_distances_spec :
    (∀ (c : Point) (pts : List Point),
        (euclidean_distances c pts).length = pts.length) ∧
    (∀ (c : Point) (pts : List Point) (i : Fin pts.length),
        (euclidean_distances c pts)[(i : ℕ)]? =
          some (Real.sqrt (((c.1 - (pts.get i).1 : ℤ) : ℝ) ^ 2
            + ((c.2 - (pts.get i).2 : ℤ) : ℝ) ^ 2))) ∧
    (∀ c : Point, euclidean_distances c [] = []) := by
  refine ⟨?_, ?_, fun c => rfl⟩
  · intro c pts
    simp [euclidean_distances_eq_map]
  · intro c pts i
    simp [euclidean_distances_eq_map, List.getElem?_map,
      List.getElem?_eq_getElem i.isLt]

/-- C3: accumulate on an absent background installs a float-widened
bit-for-bit copy of the frame (the branch in which the code reports that
the model is not yet ready); on a present background it updates every cell
to (1-weight) * old + weight * frame; composing a first call (any weight)
with a second call of weight 1/2 gives cells (1/2) * F1 + (1/2) * F2. -/
theorem accumulate_spec :
    (∀ (F : Grid ℕ) (w : ℚ),
        accumulate F w none = some (fun p => (F p : ℚ))) ∧
    (∀ (F : Grid ℕ) (w : ℚ) (B : Grid ℚ),
        accumulate F w (some B)
          = some (fun p => (1 - w) * B p + w * (F p : ℚ))) ∧
    (∀ (F1 F2 : Grid ℕ) (w : ℚ),
        accumulate F2 (1/2) (accumulate F1 w none)
          = some (fun p => (1/2) * (F1 p : ℚ) + (1/2) * (F2 p : ℚ))) := by
  refine ⟨fun F w => rfl, fun F w B => rfl, fun F1 F2 w => ?_⟩
  show accumulate F2 (1/2) (some fun p => (F1 p : ℚ)) = _
  simp only [accumulate]
  congr 1
  funext p
  ring

/-- C1: the count returned by count_fingers equals the number of contours
extracted from the circular-ROI mask that pass both counting conditions —
out_of_wrist (cY + cY * 0.25 exceeds y + h of the contour's bounding box)
and limit_points (circumference * 0.25 exceeds the contour's point count) —
the loop increments exactly on that conjunction, the codomain ℕ makes the
count a non-negative integer, and the count can legitimately be 0. -/
theorem count_fingers_spec :
    (∀ (P : Prims) (thresholded : Grid ℕ) (hand_segment : Contour),
        count_fingers P thresholded hand_segment
          = ((P.findContoursRoi (circular_roi P thresholded hand_segment)).filter
              (fingerTest (cY P hand_segment)
                (circumference P hand_segment))).length) ∧
    (∀ (c : ℤ) (circ : ℝ) (cnt : Contour),
        fingerTest c circ cnt = true
          ↔ (out_of_wrist c cnt ∧ limit_points circ cnt)) ∧
    (∃ (P : Prims) (thresholded : Grid ℕ) (hand_segment : Contour),
        count_fingers P thresholded hand_segment = 0) := by
  refine ⟨?_, ?_, ?_⟩
  · intro P thr seg
    have h := foldl_count
      (fingerTest (cY P seg) (circumference P seg))
      (P.findContoursRoi (circular_roi P thr seg)) 0
    simpa [count_fingers] using h
  · intro c circ cnt
    simp [fingerTest]
  · exact ⟨⟨fun _ => fun _ => 0, fun _ => [], fun _ => 0, fun _ => [],
      fun _ => [], fun _ _ _ _ => false, fun g => g⟩, fun _ => 0, [], rfl⟩

/-- C2: segment binarises the absolute difference between the uint8-cast
background and the frame (a cell is 255 exactly when the difference exceeds
the threshold, and 0 otherwise), extracts contours from that mask, returns
none exactly when no contour was found, and otherwise pairs the mask with
the first contour of maximal area in extraction order: every extracted
contour has area at most the selected one's, and every contour preceding
the selected one has strictly smaller area. -/
theorem segment_spec (fC : Grid ℕ → List Contour) (area : Contour → ℚ)
    (background : Grid ℚ) (frame : Grid ℕ) (threshold : ℕ) :
    (∀ p, (seg_diff background frame p
            = Int.natAbs ((astype_uint8 (background p) : ℤ) - (frame p : ℤ)))
        ∧ (seg_thresholded background frame threshold p = 255
            ↔ threshold < seg_diff background frame p)
        ∧ (seg_thresholded background frame threshold p = 255
            ∨ seg_thresholded background frame threshold p = 0)) ∧
    (segment fC area background frame threshold = none
        ↔ fC (seg_thresholded background frame threshold) = []) ∧
    (∀ m c, segment fC area background frame threshold = some (m, c) →
        m = seg_thresholded background frame threshold ∧
        ∃ pre post,
          fC (seg_thresholded background frame threshold) = pre ++ c :: post ∧
          (∀ y ∈ pre, area y < area c) ∧
          ∀ y ∈ fC (seg_thresholded background frame threshold),
            area y ≤ area c) := by
  refine ⟨?_, ?_, ?_⟩
  · intro p
    refine ⟨rfl, ?_, ?_⟩
    · by_cases h : threshold < seg_diff background frame p
      · simp [seg_thresholded, thresholdBinary, h]
      · simp [seg_thresholded, thresholdBinary, h]
    · by_cases h : threshold < seg_diff background frame p
      · exact Or.inl (by simp [seg_thresholded, thresholdBinary, h])
      · exact Or.inr (by simp [seg_thresholded, thresholdBinary, h])
  · cases h : fC (seg_thresholded background frame threshold) with
    | nil => simp [segment, h]
    | cons c0 cs => simp [segment, h]
  · intro m c hseg
    cases h : fC (seg_thresholded background frame threshold) with
    | nil =>
        exfalso
        have hnone : segment fC area background frame threshold = none := by
          simp [segment, h]
        rw [hnone] at hseg
        exact Option.noConfusion hseg
    | cons c0 cs =>
        have hs : segment fC area background frame threshold
            = some (seg_thresholded background frame threshold,
                cs.foldl (maxStep area) c0) := by
          simp only [segment, h]
          rfl
        rw [hs] at hseg
        have hpair := Option.some.inj hseg
        have hm : m = seg_thresholded background frame threshold :=
          (congrArg Prod.fst hpair).symm
        have hc : c = cs.foldl (maxStep area) c0 :=
          (congrArg Prod.snd hpair).symm
        subst hm
        subst hc
        refine ⟨rfl, ?_⟩
        obtain ⟨pre, post, heq, hlt, hle⟩ := foldl_maxStep_first area cs c0
        exact ⟨pre, post, heq, hlt, hle⟩

lemma pyMax_spec (l : List ℝ) (hl : l ≠ []) :
    pyMax l ∈ l ∧ ∀ d ∈ l, d ≤ pyMax l := by
  cases l with
  | nil => exact absurd rfl hl
  | cons d ds =>
      have hfold : pyMax (d :: ds) = ds.foldl (maxStep id) d := rfl
      obtain ⟨pre, post, heq, hlt, hle⟩ := foldl_maxStep_first id ds d
      constructor
      · rw [hfold, heq]
        exact List.mem_append.mpr (Or.inr (List.mem_cons_self _ _))
      · intro x hx
        rw [hfold]
        simpa using hle x hx

lemma euclidean_distances_nonneg (c : Point) (pts : List Point) :
    ∀ d ∈ euclidean_distances c pts, 0 ≤ d := by
  intro d hd
  rw [euclidean_distances_eq_map] at hd
  obtain ⟨p, _, rfl⟩ := List.mem_map.mp hd
  exact Real.sqrt_nonneg _

lemma max_distance_nonneg (P : Prims) (hand_segment : Contour) :
    0 ≤ max_distance P hand_segment := by
  have hne : euclidean_distances (circle_center P hand_segment)
      (outer_points P hand_segment) ≠ [] := by
    simp [euclidean_distances_eq_map, outer_points]
  obtain ⟨hmem, _⟩ := pyMax_spec _ hne
  exact euclidean_distances_nonneg _ _ _ hmem

/-- C4: on a nonempty convex hull, top/bottom/left/right are the first hull
points attaining the extreme y respectively x coordinates (every earlier
hull point is strictly off the extreme, every hull point is weakly off it);
the circle center is the pair of floor divisions (left.x + right.x) // 2 and
(top.y + bottom.y) // 2; max_distance bounds all four center-to-extreme
Euclidean distances and is one of them; the radius is the floor of
0.8 * max_distance; and the circumference is 2 * pi * radius. -/
theorem extreme_points_spec (P : Prims) (hand_segment : Contour)
    (h : conv_hull P hand_segment ≠ []) :
    (∃ pre post,
        conv_hull P hand_segment = pre ++ top_point P hand_segment :: post ∧
        (∀ q ∈ pre, (top_point P hand_segment).2 < q.2) ∧
        ∀ q ∈ conv_hull P hand_segment, (top_point P hand_segment).2 ≤ q.2) ∧
    (∃ pre post,
        conv_hull P hand_segment = pre ++ bottom_point P hand_segment :: post ∧
        (∀ q ∈ pre, q.2 < (bottom_point P hand_segment).2) ∧
        ∀ q ∈ conv_hull P hand_segment, q.2 ≤ (bottom_point P hand_segment).2) ∧
    (∃ pre post,
        conv_hull P hand_segment = pre ++ left_point P hand_segment :: post ∧
        (∀ q ∈ pre, (left_point P hand_segment).1 < q.1) ∧
        ∀ q ∈ conv_hull P hand_segment, (left_point P hand_segment).1 ≤ q.1) ∧
    (∃ pre post,
        conv_hull P hand_segment = pre ++ right_point P hand_segment :: post ∧
        (∀ q ∈ pre, q.1 < (right_point P hand_segment).1) ∧
        ∀ q ∈ conv_hull P hand_segment, q.1 ≤ (right_point P hand_segment).1) ∧
    (cX P hand_segment
        = Int.fdiv ((left_point P hand_segment).1 + (right_point P hand_segment).1) 2) ∧
    (cY P hand_segment
        = Int.fdiv ((top_point P hand_segment).2 + (bottom_point P hand_segment).2) 2) ∧
    ((∀ d ∈ euclidean_distances (circle_center P hand_segment)
          (outer_points P hand_segment), d ≤ max_distance P hand_segment) ∧
      max_distance P hand_segment
        ∈ euclidean_distances (circle_center P hand_segment)
            (outer_points P hand_segment)) ∧
    (radius P hand_segment = ⌊(0.8 : ℝ) * max_distance P hand_segment⌋) ∧
    (circumference P hand_segment
        = 2 * Real.pi * (radius P hand_segment : ℝ)) := by
  cases hh : conv_hull P hand_segment with
  | nil => exact absurd hh h
  | cons p ps =>
      have htop : top_point P hand_segment
          = ps.foldl (minStep (fun q : Point => q.2)) p := by
        simp only [top_point, hh]
        rfl
      have hbot : bottom_point P hand_segment
          = ps.foldl (maxStep (fun q : Point => q.2)) p := by
        simp only [bottom_point, hh]
        rfl
      have hleft : left_point P hand_segment
          = ps.foldl (minStep (fun q : Point => q.1)) p := by
        simp only [left_point, hh]
        rfl
      have hright : right_point P hand_segment
          = ps.foldl (maxStep (fun q : Point => q.1)) p := by
        simp only [right_point, hh]
        rfl
      refine ⟨?_, ?_, ?_, ?_, rfl, rfl, ?_, ?_, rfl⟩
      · obtain ⟨pre, post, heq, hlt, hle⟩ :=
          foldl_minStep_first (fun q : Point => q.2) ps p
        exact ⟨pre, post, by rw [htop]; exact heq,
          fun q hq => by rw [htop]; exact hlt q hq,
          fun q hq => by rw [htop]; exact hle q hq⟩
      · obtain ⟨pre, post, heq, hlt, hle⟩ :=
          foldl_maxStep_first (fun q : Point => q.2) ps p
        exact ⟨pre, post, by rw [hbot]; exact heq,
          fun q hq => by rw [hbot]; exact hlt q hq,
          fun q hq => by rw [hbot]; exact hle q hq⟩
      · obtain ⟨pre, post, heq, hlt, hle⟩ :=
          foldl_minStep_first (fun q : Point => q.1) ps p
        exact ⟨pre, post, by rw [hleft]; exact heq,
          fun q hq => by rw [hleft]; exact hlt q hq,
          fun q hq => by rw [hleft]; exact hle q hq⟩
      · obtain ⟨pre, post, heq, hlt, hle⟩ :=
          foldl_maxStep_first (fun q : Point => q.1) ps p
        exact ⟨pre, post, by rw [hright]; exact heq,
          fun q hq => by rw [hright]; exact hlt q hq,
          fun q hq => by rw [hright]; exact hle q hq⟩
      · have hne : euclidean_distances (circle_center P hand_segment)
            (outer_points P hand_segment) ≠ [] := by
          simp [euclidean_distances_eq_map, outer_points]
        obtain ⟨hmem, hmax⟩ := pyMax_spec _ hne
        exact ⟨hmax, hmem⟩
      · have h08 : (0 : ℝ) ≤ 0.8 * max_distance P hand_segment :=
          mul_nonneg (by norm_num) (max_distance_nonneg P hand_segment)
        simp [radius, realTrunc, if_pos h08]

/-- C5: any completed loop iteration reports the calibration status exactly
when the frame counter is below 60 — in particular on every frame up to 58
and still on frame 59 — attempts detection (no-hand or a finger count) from
frame 60 on whatever the primitives and capture deliver, and increments the
counter by one, so a state that has reached detection never returns to
calibration. -/
theorem session_state_spec (P : Prims) (s : LoopState) (cap : Option RawFrame)
    (s' : LoopState) (o : TickOut)
    (h : tick P s cap = some (s', o)) :
    (s.num_frames ≤ 58 → o = TickOut.calibrating) ∧
    (s.num_frames = 59 → o = TickOut.calibrating) ∧
    (60 ≤ s.num_frames → o ≠ TickOut.calibrating) ∧
    (60 ≤ s.num_frames →
        o = TickOut.noHand ∨ ∃ n, o = TickOut.detected n) ∧
    s'.num_frames = s.num_frames + 1 ∧
    (60 ≤ s.num_frames → 60 ≤ s'.num_frames) := by
  cases cap with
  | none => exact Option.noConfusion h
  | some f =>
      by_cases hlt : s.num_frames < 60
      · have ht : tick P s (some f)
            = some ({ num_frames := s.num_frames + 1,
                      background := accumulate (P.preprocess f) (1/2) s.background },
                    TickOut.calibrating) := by
          simp [tick, hlt]
        rw [ht] at h
        have hp := Option.some.inj h
        have ho : o = TickOut.calibrating := by
          simpa using (congrArg Prod.snd hp).symm
        have hn : s'.num_frames = s.num_frames + 1 := by
          have := congrArg (fun q => (Prod.fst q).num_frames) hp
          simpa using this.symm
        exact ⟨fun _ => ho, fun _ => ho,
          fun hge => absurd hlt (by omega),
          fun hge => absurd hlt (by omega),
          hn, fun hge => by omega⟩
      · cases hbg : s.background with
        | none =>
            exfalso
            have ht : tick P s (some f) = none := by simp [tick, hlt, hbg]
            rw [ht] at h
            exact Option.noConfusion h
        | some bg =>
            cases hsegm : segment P.findContoursSeg P.area bg (P.preprocess f) 25 with
            | none =>
                have ht : tick P s (some f)
                    = some ({ s with num_frames := s.num_frames + 1 },
                            TickOut.noHand) := by
                  simp [tick, hlt, hbg, hsegm]
                rw [ht] at h
                have hp := Option.some.inj h
                have ho : o = TickOut.noHand := by
                  simpa using (congrArg Prod.snd hp).symm
                have hn : s'.num_frames = s.num_frames + 1 := by
                  have := congrArg (fun q => (Prod.fst q).num_frames) hp
                  simpa using this.symm
                refine ⟨fun hle => absurd (by omega : s.num_frames < 60) hlt,
                  fun heq => absurd (by omega : s.num_frames < 60) hlt,
                  fun _ => by simp [ho],
                  fun _ => Or.inl ho, hn, fun hge => by omega⟩
            | some mc =>
                obtain ⟨thr, hseg2⟩ := mc
                have ht : tick P s (some f)
                    = some ({ s with num_frames := s.num_frames + 1 },
                            TickOut.detected (count_fingers P thr hseg2)) := by
                  simp [tick, hlt, hbg, hsegm]
                rw [ht] at h
                have hp := Option.some.inj h
                have ho : o = TickOut.detected (count_fingers P thr hseg2) := by
                  simpa using (congrArg Prod.snd hp).symm
                have hn : s'.num_frames = s.num_frames + 1 := by
                  have := congrArg (fun q => (Prod.fst q).num_frames) hp
                  simpa using this.symm
                refine ⟨fun hle => absurd (by omega : s.num_frames < 60) hlt,
                  fun heq => absurd (by omega : s.num_frames < 60) hlt,
                  fun _ => by simp [ho],
                  fun _ => Or.inr ⟨count_fingers P thr hseg2, ho⟩,
                  hn, fun hge => by omega⟩

/-- C6: the claim fails on the code.  The main loop ignores the success flag
of cam.read() and passes the captured frame straight to cv2.flip; on a
failed capture there is no frame, so the iteration raises instead of
no-opping: for every loop state, tick on an absent capture aborts (none)
rather than returning the state unchanged. -/
theorem tick_no_frame_aborts (P : Prims) (s : LoopState) :
    tick P s none = none := rfl

lemma accumulate_isSome (frame : Grid ℕ) (w : ℚ) (background : Option (Grid ℚ)) :
    (accumulate frame w background).isSome := by
  cases background <;> rfl

lemma tick_succeeds (P : Prims) (s : LoopState) (f : RawFrame)
    (hinv : 1 ≤ s.num_frames → s.background.isSome) :
    ∃ s' o, tick P s (some f) = some (s', o) ∧
      s'.num_frames = s.num_frames + 1 ∧ s'.background.isSome := by
  by_cases hlt : s.num_frames < 60
  · refine ⟨⟨s.num_frames + 1, accumulate (P.preprocess f) (1/2) s.background⟩,
      TickOut.calibrating, by simp [tick, hlt], rfl, accumulate_isSome _ _ _⟩
  · cases hbg : s.background with
    | none =>
        exfalso
        have : s.background.isSome := hinv (by omega)
        rw [hbg] at this
        exact Bool.noConfusion this
    | some bg =>
        cases hsegm : segment P.findContoursSeg P.area bg (P.preprocess f) 25 with
        | none =>
            exact ⟨⟨s.num_frames + 1, s.background⟩, TickOut.noHand,
              by simp [tick, hlt, hbg, hsegm], rfl, by simp [hbg]⟩
        | some mc =>
            obtain ⟨thr, hseg2⟩ := mc
            exact ⟨⟨s.num_frames + 1, s.background⟩,
              TickOut.detected (count_fingers P thr hseg2),
              by simp [tick, hlt, hbg, hsegm], rfl, by simp [hbg]⟩

lemma runTicks_inv (P : Prims) (fs : List RawFrame) :
    ∀ s : LoopState, (1 ≤ s.num_frames → s.background.isSome) →
      ∃ s', runTicks P s fs = some s' ∧
        s'.num_frames = s.num_frames + fs.length ∧
        (1 ≤ s'.num_frames → s'.background.isSome) := by
  induction fs with
  | nil => exact fun s hs => ⟨s, rfl, by simp, hs⟩
  | cons f fs ih =>
      intro s hs
      obtain ⟨s1, o, hstep, hn1, hb1⟩ := tick_succeeds P s f hs
      obtain ⟨s', hrun, hn, hb⟩ := ih s1 (fun _ => hb1)
      refine ⟨s', ?_, by simp only [List.length_cons]; omega, hb⟩
      simp [runTicks, hstep, hrun]

/-- C9: from the initial state (counter 0, background absent) the main loop
never aborts on any list of successfully captured frames: every run reaches
a final state whose counter equals the number of frames and whose
background is present exactly when at least one frame was processed — the
first of the sixty calibration frames installs the background, so the
detection branch (counter at least 60) never dereferences an absent
background and segment's precondition holds on every call. -/
theorem segment_precondition_spec (P : Prims) (fs : List RawFrame) :
    ∃ s, runTicks P initialState fs = some s ∧
      s.num_frames = fs.length ∧
      (s.background.isSome ↔ 1 ≤ fs.length) := by
  obtain ⟨s, hrun, hn, hb⟩ :=
    runTicks_inv P fs initialState (by simp [initialState])
  refine ⟨s, hrun, by simpa [initialState] using hn, ?_⟩
  constructor
  · intro hsome
    by_contra hlen
    have hfs : fs = [] := by
      cases fs with
      | nil => rfl
      | cons a l => exact absurd (by simp) hlen
    subst hfs
    have h0 : runTicks P initialState ([] : List RawFrame) = some initialState := rfl
    rw [h0] at hrun
    have hinit : s = initialState := (Option.some.inj hrun).symm
    rw [hinit] at hsome
    simp [initialState] at hsome
  · intro hlen
    apply hb
    omega

lemma count_fingers_heap_preserves (P : Prims) (σ : Store) (maskId : ℕ)
    (hand_segment : Contour) (i : ℕ) (hi : i < σ.next) :
    ((count_fingers_heap P σ maskId hand_segment).1).mem i = σ.mem i := by
  have h1 : ¬ (i = σ.next) := by omega
  have h2 : ¬ (i = σ.next + 1) := by omega
  have h3 : ¬ (i = σ.next + 1 + 1) := by omega
  simp [count_fingers_heap, alloc, writeStore, h1, h2, h3]

lemma count_fingers_heap_count (P : Prims) (σ : Store) (maskId : ℕ)
    (hand_segment : Contour) :
    (count_fingers_heap P σ maskId hand_segment).2
      = count_fingers P (σ.mem maskId) hand_segment := by
  have e1 : σ.next + 1 ≠ σ.next := by omega
  have e2 : σ.next + 1 + 1 ≠ σ.next := by omega
  have e3 : σ.next + 1 + 1 ≠ σ.next + 1 := by omega
  have hgrid : circular_roi P (σ.mem maskId) hand_segment
      = fun p =>
          if P.circlePx (circle_center P hand_segment)
              (radius P hand_segment) 10 p
          then Nat.land (σ.mem maskId p) (σ.mem maskId p) else 0 := by
    funext p
    by_cases hp : P.circlePx (circle_center P hand_segment)
        (radius P hand_segment) 10 p
    · simp [circular_roi, circular_roi_drawn, hp]
    · simp [circular_roi, circular_roi_drawn, hp]
  simp [count_fingers_heap, count_fingers, alloc, writeStore, e1, e2, e3, hgrid]

/-- C10: count_fingers leaves its inputs unchanged: running the
heap-explicit count_fingers over a store leaves every previously allocated
buffer — in particular the thresholded mask it reads — exactly as it was,
because the ring is drawn on a freshly allocated zero mask, the bitwise
intersection allocates a new array, and contour extraction scribbles only
on a fresh copy of it (the contour argument is a pure value and cannot be
mutated at all). -/
theorem count_fingers_no_mutation (P : Prims) (σ : Store) (maskId : ℕ)
    (hand_segment : Contour) (i : ℕ) (hi : i < σ.next) :
    ((count_fingers_heap P σ maskId hand_segment).1).mem i = σ.mem i :=
  count_fingers_heap_preserves P σ maskId hand_segment i hi

/-- C8: count_fingers is a pure function of its (mask, contour) arguments:
running the heap-explicit count_fingers a second time on the same mask
buffer and the same contour — over the store left behind by the first run,
i.e. with every hidden effect of the first call present — returns the same
count as the first run. -/
theorem count_fingers_idempotent (P : Prims) (σ : Store) (maskId : ℕ)
    (hand_segment : Contour) (h : maskId < σ.next) :
    (count_fingers_heap P (count_fingers_heap P σ maskId hand_segment).1
        maskId hand_segment).2
      = (count_fingers_heap P σ maskId hand_segment).2 := by
  rw [count_fingers_heap_count, count_fingers_heap_count,
    count_fingers_heap_preserves P σ maskId hand_segment maskId h]

/-- Concrete primitives for instantiating the hypotheses of the theorems at
a concrete input. -/
def demoPrims : Prims :=
  ⟨fun _ => fun _ => 0, fun _ => [], fun _ => 0,
   fun _ => [(0, 0), (2, 4)], fun _ => [], fun _ _ _ _ => false, fun g => g⟩

/-- A concrete raw frame. -/
def demoFrame : RawFrame := fun _ => (0, 0, 0)

/-- A concrete store with one allocated buffer. -/
def demoStore : Store := ⟨fun _ => fun _ => 0, 1⟩

/-- Witness for C4: the characterisation instantiated at the concrete
primitives (hull [(0,0), (2,4)]) and the empty hand segment. -/
theorem extreme_points_spec_witness :
    (∃ pre post,
        conv_hull demoPrims [] = pre ++ top_point demoPrims [] :: post ∧
        (∀ q ∈ pre, (top_point demoPrims []).2 < q.2) ∧
        ∀ q ∈ conv_hull demoPrims [], (top_point demoPrims []).2 ≤ q.2) ∧
    (∃ pre post,
        conv_hull demoPrims [] = pre ++ bottom_point demoPrims [] :: post ∧
        (∀ q ∈ pre, q.2 < (bottom_point demoPrims []).2) ∧
        ∀ q ∈ conv_hull demoPrims [], q.2 ≤ (bottom_point demoPrims []).2) ∧
    (∃ pre post,
        conv_hull demoPrims [] = pre ++ left_point demoPrims [] :: post ∧
        (∀ q ∈ pre, (left_point demoPrims []).1 < q.1) ∧
        ∀ q ∈ conv_hull demoPrims [], (left_point demoPrims []).1 ≤ q.1) ∧
    (∃ pre post,
        conv_hull demoPrims [] = pre ++ right_point demoPrims [] :: post ∧
        (∀ q ∈ pre, q.1 < (right_point demoPrims []).1) ∧
        ∀ q ∈ conv_hull demoPrims [], q.1 ≤ (right_point demoPrims []).1) ∧
    (cX demoPrims []
        = Int.fdiv ((left_point demoPrims []).1 + (right_point demoPrims []).1) 2) ∧
    (cY demoPrims []
        = Int.fdiv ((top_point demoPrims []).2 + (bottom_point demoPrims []).2) 2) ∧
    ((∀ d ∈ euclidean_distances (circle_center demoPrims [])
          (outer_points demoPrims []), d ≤ max_distance demoPrims []) ∧
      max_distance demoPrims []
        ∈ euclidean_distances (circle_center demoPrims [])
            (outer_points demoPrims [])) ∧
    (radius demoPrims [] = ⌊(0.8 : ℝ) * max_distance demoPrims []⌋) ∧
    (circumference demoPrims []
        = 2 * Real.pi * (radius demoPrims [] : ℝ)) :=
  extreme_points_spec demoPrims [] (by decide)

/-- Witness for C5: the state-machine facts instantiated at the initial
state and a successfully captured concrete frame. -/
theorem session_state_spec_witness :
    (initialState.num_frames ≤ 58 → TickOut.calibrating = TickOut.calibrating) ∧
    (initialState.num_frames = 59 → TickOut.calibrating = TickOut.calibrating) ∧
    (60 ≤ initialState.num_frames → TickOut.calibrating ≠ TickOut.calibrating) ∧
    (60 ≤ initialState.num_frames →
        TickOut.calibrating = TickOut.noHand ∨
          ∃ n, TickOut.calibrating = TickOut.detected n) ∧
    (LoopState.mk 1 (accumulate (demoPrims.preprocess demoFrame) (1/2) none)).num_frames
      = initialState.num_frames + 1 ∧
    (60 ≤ initialState.num_frames →
      60 ≤ (LoopState.mk 1
        (accumulate (demoPrims.preprocess demoFrame) (1/2) none)).num_frames) :=
  session_state_spec demoPrims initialState (some demoFrame)
    (LoopState.mk 1 (accumulate (demoPrims.preprocess demoFrame) (1/2) none))
    TickOut.calibrating rfl

/-- Witness for C8: the double run at the concrete store, mask buffer 0 and
the empty contour. -/
theorem count_fingers_idempotent_witness :
    (count_fingers_heap demoPrims
        (count_fingers_heap demoPrims demoStore 0 []).1 0 []).2
      = (count_fingers_heap demoPrims demoStore 0 []).2 :=
  count_fingers_idempotent demoPrims demoStore 0 [] (by decide)

/-- Witness for C10: buffer 0 of the concrete store is untouched by the run. -/
theorem count_fingers_no_mutation_witness :
    ((count_fingers_heap demoPrims demoStore 0 []).1).mem 0 = demoStore.mem 0 :=
  count_fingers_no_mutation demoPrims demoStore 0 [] 0 (by decide)

end HandPipeline
